import Mathlib

/-!
Shallow embedding of
`src/docusaurus-cms/src/renderer/src/components/NotionEditor/extensions/MonacoCodeBlock/MonacoCodeBlockView.tsx`.

The component is a tiptap (ProseMirror) node view hosting a Monaco editor.
We model:
  * the ProseMirror document as a flat list of top-level textblock nodes
    (the only nodes this component ever touches), with 1-based integer
    positions: a textblock of text `t` spans `t.length + 2` positions
    (opening token, characters, closing token), as in ProseMirror;
  * the Monaco text model as a list of lines (`getLineCount`,
    `getLineMaxColumn` follow Monaco's 1-based conventions);
  * `getPos` from the node-view props as `Option (Option Int)`:
    `none` = not a function, `some none` = a function returning
    `undefined`, `some (some p)` = a function returning position `p`;
  * each keydown branch of `handleEditorMount` as a pure function from the
    relevant state to a `KeyEffect` record collecting the dispatched
    transaction's resulting document, the `editor.commands.focus` target,
    the Monaco `setPosition` call, and whether `preventDefault` ran.
-/

namespace MonacoCodeBlock

/-- A ProseMirror textblock node as this component sees it: its type name,
its `language` attribute (the only attribute the component reads or writes;
`none` models an absent/undefined attribute), its marks and its text
content. -/
structure PMNode where
  typeName : String
  language : Option String
  marks : List String
  text : String
deriving Repr, DecidableEq

/-- `node.nodeSize` of a textblock: its text length plus 2 boundary tokens. -/
def PMNode.nodeSize (n : PMNode) : Int := (n.text.length : Int) + 2

/-- `editor.schema.nodes.paragraph.create()`: an empty paragraph node. -/
def paragraphNode : PMNode :=
  { typeName := "paragraph", language := none, marks := [], text := "" }

/-- `editor.state.doc.content.size`: total size of the top-level children. -/
def contentSize (doc : List PMNode) : Int := (doc.map PMNode.nodeSize).sum

/-- `doc.nodeAt(pos)` restricted to the positions this component passes it:
the top-level child starting exactly at `pos`, if any.  (For a position
strictly inside a child, ProseMirror would return that child's text node;
`getPos()` is always a top-level child boundary, so that case never
arises here and is modelled as `none`.) -/
def nodeAt : List PMNode → Int → Option PMNode
  | [], _ => none
  | c :: rest, pos =>
      if pos = 0 then some c
      else if pos < c.nodeSize then none
      else nodeAt rest (pos - c.nodeSize)

/-- `tr.insert(pos, n)` at a top-level boundary position. -/
def insertAt : List PMNode → Int → PMNode → List PMNode
  | [], _, n => [n]
  | c :: rest, pos, n =>
      if pos ≤ 0 then n :: c :: rest
      else c :: insertAt rest (pos - c.nodeSize) n

/-- `tr.delete(f, t)`: removes the top-level children wholly contained in
the range.  (The component only ever deletes ranges that exactly cover
whole children, so partial overlaps - which ProseMirror would slice -
never occur.) -/
def deleteRange : List PMNode → Int → Int → List PMNode
  | [], _, _ => []
  | c :: rest, f, t =>
      if f ≤ 0 ∧ c.nodeSize ≤ t then deleteRange rest (f - c.nodeSize) (t - c.nodeSize)
      else c :: deleteRange rest (f - c.nodeSize) (t - c.nodeSize)

/-- `tr.replaceWith(f, t, n)` for the node-exact ranges this component uses. -/
def replaceWith (doc : List PMNode) (f t : Int) (n : PMNode) : List PMNode :=
  insertAt (deleteRange doc f t) f n

/-- A Monaco cursor position (1-based line and column). -/
structure CursorPos where
  lineNumber : Nat
  column : Nat
deriving Repr, DecidableEq

/-- A Monaco text model: its lines. -/
structure MonacoModel where
  lines : List String
deriving Repr, DecidableEq

/-- `model.getLineCount()`. -/
def getLineCount (m : MonacoModel) : Nat := m.lines.length

/-- `model.getLineMaxColumn(ln)`: one past the last character of line `ln`. -/
def getLineMaxColumn (m : MonacoModel) (ln : Nat) : Nat :=
  (m.lines.getD (ln - 1) "").length + 1

/-- `isFirstNode` (source lines 126-134): `getPos` is a function, returns a
defined position, and that position is 0. -/
def isFirstNode (getPos : Option (Option Int)) : Bool :=
  match getPos with
  | none => false
  | some none => false
  | some (some pos) => pos = 0

/-- `insertNodeAfter` (source lines 95-109): inserts an empty paragraph at
`getPos() + node.nodeSize` and focuses `endPos + 1`; returns the new
document and the focus target (`none` when nothing was dispatched). -/
def insertNodeAfter (getPos : Option (Option Int)) (node : PMNode)
    (doc : List PMNode) : List PMNode × Option Int :=
  match getPos with
  | none => (doc, none)
  | some none => (doc, none)
  | some (some pos) =>
      let endPos := pos + node.nodeSize
      (insertAt doc endPos paragraphNode, some (endPos + 1))

/-- `insertNodeBefore` (source lines 78-92): inserts an empty paragraph at
`getPos()` and focuses that position. -/
def insertNodeBefore (getPos : Option (Option Int))
    (doc : List PMNode) : List PMNode × Option Int :=
  match getPos with
  | none => (doc, none)
  | some none => (doc, none)
  | some (some pos) => (insertAt doc pos paragraphNode, some pos)

/-- `handleDelete` (source lines 112-123): if `getPos` is a function and a
node exists at `getPos()`, delete `[pos, pos + nodeAtPos.nodeSize)`.
(`getPos()` returning `undefined` makes `doc.nodeAt` throw a `RangeError`
in ProseMirror before any dispatch, leaving the document unchanged.) -/
def handleDelete (getPos : Option (Option Int)) (doc : List PMNode) : List PMNode :=
  match getPos with
  | none => doc
  | some none => doc
  | some (some pos) =>
      match nodeAt doc pos with
      | some nodeAtPos => deleteRange doc pos (pos + nodeAtPos.nodeSize)
      | none => doc

/-- The observable outcome of one keydown branch: the document after any
dispatched transaction, the `editor.commands.focus` target, the argument
of any Monaco `setPosition` call, and whether `preventDefault` ran. -/
structure KeyEffect where
  doc : List PMNode
  focus : Option Int
  monacoCursor : Option CursorPos
  prevented : Bool
deriving Repr, DecidableEq

/-- The outcome when a keydown branch does nothing. -/
def noKeyEffect (doc : List PMNode) : KeyEffect :=
  { doc := doc, focus := none, monacoCursor := none, prevented := false }

/-- The `DownArrow` branch of the `onKeyDown` handler (source lines
179-211). -/
def handleDownArrow (getPos : Option (Option Int)) (node : PMNode)
    (doc : List PMNode) (model : MonacoModel) (position : CursorPos) : KeyEffect :=
  let lastLineNumber := getLineCount model
  let lastLineMaxColumn := getLineMaxColumn model lastLineNumber
  if position.lineNumber = lastLineNumber ∧ position.column = lastLineMaxColumn then
    match getPos with
    | some (some pos) =>
        let endPos := pos + node.nodeSize
        let docSize := contentSize doc
        if endPos ≥ docSize then
          let r := insertNodeAfter (some (some pos)) node doc
          { doc := r.1, focus := r.2, monacoCursor := none, prevented := true }
        else
          { doc := doc, focus := some endPos,
            monacoCursor := some ⟨1, 1⟩, prevented := true }
    | _ => { doc := doc, focus := none, monacoCursor := none, prevented := true }
  else noKeyEffect doc

/-- The `UpArrow` branch of the `onKeyDown` handler (source lines 213-234).
In the non-first-node branch `setPosition` runs before the `undefined`
check on `getPos()`. -/
def handleUpArrow (getPos : Option (Option Int)) (doc : List PMNode)
    (position : CursorPos) : KeyEffect :=
  if position.lineNumber = 1 ∧ position.column = 1 then
    if isFirstNode getPos then
      let r := insertNodeBefore getPos doc
      { doc := r.1, focus := r.2, monacoCursor := none, prevented := true }
    else
      match getPos with
      | none => { doc := doc, focus := none, monacoCursor := none, prevented := true }
      | some none =>
          { doc := doc, focus := none, monacoCursor := some ⟨1, 1⟩, prevented := true }
      | some (some pos) =>
          { doc := doc, focus := some pos,
            monacoCursor := some ⟨1, 1⟩, prevented := true }
  else noKeyEffect doc

/-- The `LeftArrow` branch of the `onKeyDown` handler (source lines
236-258); identical in behaviour to the `UpArrow` branch. -/
def handleLeftArrow (getPos : Option (Option Int)) (doc : List PMNode)
    (position : CursorPos) : KeyEffect :=
  if position.lineNumber = 1 ∧ position.column = 1 then
    if isFirstNode getPos then
      let r := insertNodeBefore getPos doc
      { doc := r.1, focus := r.2, monacoCursor := none, prevented := true }
    else
      match getPos with
      | none => { doc := doc, focus := none, monacoCursor := none, prevented := true }
      | some none =>
          { doc := doc, focus := none, monacoCursor := some ⟨1, 1⟩, prevented := true }
      | some (some pos) =>
          { doc := doc, focus := some pos,
            monacoCursor := some ⟨1, 1⟩, prevented := true }
  else noKeyEffect doc

/-- The `RightArrow` branch of the `onKeyDown` handler (source lines
260-281): never inserts a node; `setPosition` runs only when `getPos()`
is defined. -/
def handleRightArrow (getPos : Option (Option Int)) (node : PMNode)
    (doc : List PMNode) (model : MonacoModel) (position : CursorPos) : KeyEffect :=
  let lastLineNumber := getLineCount model
  let lastLineMaxColumn := getLineMaxColumn model lastLineNumber
  if position.lineNumber = lastLineNumber ∧ position.column = lastLineMaxColumn then
    match getPos with
    | none => { doc := doc, focus := none, monacoCursor := none, prevented := true }
    | some none => { doc := doc, focus := none, monacoCursor := none, prevented := true }
    | some (some pos) =>
        { doc := doc, focus := some (pos + node.nodeSize),
          monacoCursor := some ⟨1, 1⟩, prevented := true }
  else noKeyEffect doc

/-- The body of the debounced `handleEditorChange` callback (source lines
136-169), as a function of the editor value (`none` = `undefined`), the
`isUpdatingRef` flag, `getPos` and the document; returns the document after
any dispatched transaction.  A non-function `getPos` or an `undefined`
position throws inside the `try` block, so the `catch` leaves the document
unchanged. -/
def handleEditorChangeCore (value : Option String) (isUpdating : Bool)
    (getPos : Option (Option Int)) (doc : List PMNode) : List PMNode :=
  match value with
  | none => doc
  | some v =>
      if v = "" then doc
      else if isUpdating then doc
      else
        match getPos with
        | none => doc
        | some none => doc
        | some (some pos) =>
            match nodeAt doc pos with
            | none => doc
            | some originalNode =>
                let newNode : PMNode :=
                  { typeName := originalNode.typeName,
                    language := originalNode.language,
                    marks := originalNode.marks,
                    text := v }
                replaceWith doc pos (pos + originalNode.nodeSize) newNode

/-- The `debounce` wrapper (source lines 38-52) as a timed transition
system.  The state is the at-most-one pending timer (`fire time`, saved
arguments).  `runDebounce wait pending calls` consumes the remaining calls
`(time, args)` in increasing time order and returns the list of actual
invocations of the wrapped function: a pending timer fires when its fire
time is reached before the next call; each call cancels the pending timer
and schedules a new one `wait` later with its own arguments. -/
def runDebounce {α : Type} (wait : Int) :
    Option (Int × α) → List (Int × α) → List (Int × α)
  | none, [] => []
  | some p, [] => [p]
  | none, (t, a) :: rest => runDebounce wait (some (t + wait, a)) rest
  | some (ft, pa), (t, a) :: rest =>
      if ft ≤ t then (ft, pa) :: runDebounce wait (some (t + wait, a)) rest
      else runDebounce wait (some (t + wait, a)) rest

/-- The call times are strictly increasing and each call arrives less than
`wait` after the previous one. -/
def gapsLT {α : Type} (wait : Int) : List (Int × α) → Prop
  | [] => True
  | [_] => True
  | (t1, _) :: (t2, a2) :: rest =>
      t1 < t2 ∧ t2 - t1 < wait ∧ gapsLT wait ((t2, a2) :: rest)

/-- The `ProgrammingLanguage` union type (source lines 23-36). -/
inductive ProgrammingLanguage where
  | javascript
  | typescript
  | html
  | css
  | json
  | python
  | java
  | csharp
  | php
  | ruby
  | go
  | rust
  | shell
deriving Repr, DecidableEq

/-- The string of each `ProgrammingLanguage` value. -/
def ProgrammingLanguage.value : ProgrammingLanguage → String
  | .javascript => "javascript"
  | .typescript => "typescript"
  | .html => "html"
  | .css => "css"
  | .json => "json"
  | .python => "python"
  | .java => "java"
  | .csharp => "csharp"
  | .php => "php"
  | .ruby => "ruby"
  | .go => "go"
  | .rust => "rust"
  | .shell => "shell"

/-- Every value of `ProgrammingLanguage`, in declaration order. -/
def allProgrammingLanguages : List ProgrammingLanguage :=
  [.javascript, .typescript, .html, .css, .json, .python, .java, .csharp,
   .php, .ruby, .go, .rust, .shell]

/-- The `languages` array (source lines 329-343). -/
def languages : List String :=
  ["javascript", "typescript", "html", "css", "json", "python", "java",
   "csharp", "php", "ruby", "go", "rust", "shell"]

/-- `node.attrs.language || 'javascript'` (source line 58): an absent or
falsy (empty-string) attribute falls back to `javascript`. -/
def effectiveLanguage (n : PMNode) : String :=
  match n.language with
  | none => "javascript"
  | some s => if s = "" then "javascript" else s

/-- The parts of the rendered JSX that the claims mention: the `select`
value, the `language` and `defaultLanguage` props of the Monaco `Editor`,
the editor `value`, and the option list. -/
structure RenderedView where
  selectorValue : String
  editorLanguage : String
  editorDefaultLanguage : String
  editorValue : String
  options : List String
deriving Repr, DecidableEq

/-- The render output (source lines 345-412). -/
def render (n : PMNode) : RenderedView :=
  { selectorValue := effectiveLanguage n,
    editorLanguage := effectiveLanguage n,
    editorDefaultLanguage := effectiveLanguage n,
    editorValue := n.text,
    options := languages }

/-- `onLanguageChange` (source lines 307-309): `updateAttributes` merges
`language : v` into the node's attributes. -/
def onLanguageChange (n : PMNode) (v : String) : PMNode :=
  { n with language := some v }

/-! ### Structural lemmas about the document model -/

theorem PMNode.nodeSize_pos (n : PMNode) : 0 < n.nodeSize := by
  unfold PMNode.nodeSize
  positivity

theorem contentSize_nil : contentSize [] = 0 := rfl

theorem contentSize_cons (c : PMNode) (rest : List PMNode) :
    contentSize (c :: rest) = c.nodeSize + contentSize rest := by
  simp [contentSize]

theorem contentSize_append (l1 l2 : List PMNode) :
    contentSize (l1 ++ l2) = contentSize l1 + contentSize l2 := by
  simp [contentSize]

theorem contentSize_nonneg (doc : List PMNode) : 0 ≤ contentSize doc := by
  induction doc with
  | nil => simp [contentSize_nil]
  | cons c rest ih =>
      rw [contentSize_cons]
      have := c.nodeSize_pos
      omega

theorem eq_nil_of_contentSize_nonpos (doc : List PMNode)
    (h : contentSize doc ≤ 0) : doc = [] := by
  cases doc with
  | nil => rfl
  | cons c rest =>
      rw [contentSize_cons] at h
      have h1 := c.nodeSize_pos
      have h2 := contentSize_nonneg rest
      omega

/-- A node found by `nodeAt` splits the document at its start position. -/
theorem nodeAt_split (doc : List PMNode) (p : Int) (n : PMNode)
    (h : nodeAt doc p = some n) :
    ∃ pre post, doc = pre ++ n :: post ∧ contentSize pre = p := by
  induction doc generalizing p with
  | nil => simp [nodeAt] at h
  | cons c rest ih =>
      rw [nodeAt] at h
      by_cases h0 : p = 0
      · rw [if_pos h0] at h
        refine ⟨[], rest, ?_, ?_⟩
        · simpa using Option.some_injective _ h
        · simpa [contentSize_nil] using h0.symm
      · rw [if_neg h0] at h
        by_cases hlt : p < c.nodeSize
        · simp [if_pos hlt] at h
        · rw [if_neg hlt] at h
          obtain ⟨pre, post, hsplit, hsize⟩ := ih (p - c.nodeSize) h
          refine ⟨c :: pre, post, by simp [hsplit], ?_⟩
          rw [contentSize_cons, hsize]
          ring

/-- `nodeAt` finds the node that starts at a child boundary. -/
theorem nodeAt_boundary (pre : List PMNode) (n : PMNode) (post : List PMNode)
    (p : Int) (h : contentSize pre = p) :
    nodeAt (pre ++ n :: post) p = some n := by
  induction pre generalizing p with
  | nil =>
      rw [contentSize_nil] at h
      simp [nodeAt, h.symm]
  | cons c rest ih =>
      rw [contentSize_cons] at h
      have hc := c.nodeSize_pos
      have hr := contentSize_nonneg rest
      rw [List.cons_append, nodeAt]
      rw [if_neg (by omega), if_neg (by omega)]
      exact ih (p - c.nodeSize) (by omega)

/-- `insertAt` at a child boundary inserts exactly there. -/
theorem insertAt_boundary (pre post : List PMNode) (n : PMNode)
    (p : Int) (h : contentSize pre = p) :
    insertAt (pre ++ post) p n = pre ++ n :: post := by
  induction pre generalizing p with
  | nil =>
      rw [contentSize_nil] at h
      cases post with
      | nil => simp [insertAt]
      | cons c rest => simp [insertAt, if_pos (le_of_eq h.symm)]
  | cons c rest ih =>
      rw [contentSize_cons] at h
      have hc := c.nodeSize_pos
      have hr := contentSize_nonneg rest
      rw [List.cons_append, insertAt, if_neg (by omega)]
      rw [List.cons_append, ih (p - c.nodeSize) (by omega)]

/-- Deleting an empty or inverted range changes nothing. -/
theorem deleteRange_of_nonpos (doc : List PMNode) (f t : Int)
    (h : t ≤ 0) : deleteRange doc f t = doc := by
  induction doc generalizing f t with
  | nil => rfl
  | cons c rest ih =>
      have hc := c.nodeSize_pos
      rw [deleteRange, if_neg (by omega), ih _ _ (by omega)]

/-- Deleting a range that exactly covers one child removes that child. -/
theorem deleteRange_exact (pre : List PMNode) (n : PMNode) (post : List PMNode)
    (p : Int) (h : contentSize pre = p) :
    deleteRange (pre ++ n :: post) p (p + n.nodeSize) = pre ++ post := by
  induction pre generalizing p with
  | nil =>
      rw [contentSize_nil] at h
      subst h
      rw [List.nil_append, deleteRange, if_pos (by simp)]
      simpa using deleteRange_of_nonpos post (0 - n.nodeSize) (n.nodeSize - n.nodeSize) (by omega)
  | cons c rest ih =>
      rw [contentSize_cons] at h
      have hc := c.nodeSize_pos
      have hr := contentSize_nonneg rest
      rw [List.cons_append, deleteRange, if_neg (by omega), List.cons_append]
      have := ih (p - c.nodeSize) (by omega)
      rw [show p + n.nodeSize - c.nodeSize = p - c.nodeSize + n.nodeSize by ring, this]

/-- `replaceWith` on a node-exact range substitutes the new node in place. -/
theorem replaceWith_exact (pre : List PMNode) (orig : PMNode) (post : List PMNode)
    (p : Int) (h : contentSize pre = p) (n : PMNode) :
    replaceWith (pre ++ orig :: post) p (p + orig.nodeSize) n = pre ++ n :: post := by
  rw [replaceWith, deleteRange_exact pre orig post p h, insertAt_boundary pre post n p h]

/-- Inserting at position 0 (or below) prepends. -/
theorem insertAt_nonpos (doc : List PMNode) (p : Int) (n : PMNode)
    (h : p ≤ 0) : insertAt doc p n = n :: doc := by
  cases doc with
  | nil => rfl
  | cons c rest => rw [insertAt, if_pos h]

/-! ### Unfolding lemmas for the keydown handlers -/

theorem isFirstNode_iff (gp : Option (Option Int)) :
    isFirstNode gp = true ↔ gp = some (some 0) := by
  rcases gp with _ | (_ | p) <;> simp [isFirstNode]

theorem handleDownArrow_insert_eq (p : Int) (node : PMNode) (doc : List PMNode)
    (m : MonacoModel) (cur : CursorPos)
    (hcond : cur.lineNumber = getLineCount m ∧
      cur.column = getLineMaxColumn m (getLineCount m))
    (hge : contentSize doc ≤ p + node.nodeSize) :
    handleDownArrow (some (some p)) node doc m cur =
      { doc := insertAt doc (p + node.nodeSize) paragraphNode,
        focus := some (p + node.nodeSize + 1), monacoCursor := none,
        prevented := true } := by
  unfold handleDownArrow
  dsimp only
  rw [if_pos hcond, if_pos hge]
  rfl

theorem handleDownArrow_focus_eq (p : Int) (node : PMNode) (doc : List PMNode)
    (m : MonacoModel) (cur : CursorPos)
    (hcond : cur.lineNumber = getLineCount m ∧
      cur.column = getLineMaxColumn m (getLineCount m))
    (hlt : p + node.nodeSize < contentSize doc) :
    handleDownArrow (some (some p)) node doc m cur =
      { doc := doc, focus := some (p + node.nodeSize),
        monacoCursor := some ⟨1, 1⟩, prevented := true } := by
  unfold handleDownArrow
  dsimp only
  rw [if_pos hcond, if_neg (by omega)]

theorem handleDownArrow_prevented (gp : Option (Option Int)) (node : PMNode)
    (doc : List PMNode) (m : MonacoModel) (cur : CursorPos) :
    (handleDownArrow gp node doc m cur).prevented = true ↔
      (cur.lineNumber = getLineCount m ∧
       cur.column = getLineMaxColumn m (getLineCount m)) := by
  unfold handleDownArrow
  dsimp only
  by_cases hcond : cur.lineNumber = getLineCount m ∧
      cur.column = getLineMaxColumn m (getLineCount m)
  · rw [if_pos hcond]
    rcases gp with _ | (_ | p)
    · exact iff_of_true rfl hcond
    · exact iff_of_true rfl hcond
    · dsimp only
      by_cases hge : p + node.nodeSize ≥ contentSize doc
      · rw [if_pos hge]
        exact iff_of_true rfl hcond
      · rw [if_neg hge]
        exact iff_of_true rfl hcond
  · rw [if_neg hcond]
    exact iff_of_false (by simp [noKeyEffect]) hcond

/-! ### Claim theorems -/

/-- Claim C3: boundary detection.  `isFirstNode` returns `true` exactly when
`getPos` is a function whose result is defined and equal to 0, and the
`DownArrow` handler recognises the end-of-block boundary (and so calls
`preventDefault`) exactly when the cursor's line is `model.getLineCount()`
and its column is `model.getLineMaxColumn` of that line. -/
theorem claim_boundary_detection :
    (∀ gp : Option (Option Int), isFirstNode gp = true ↔ gp = some (some 0)) ∧
    (∀ (gp : Option (Option Int)) (node : PMNode) (doc : List PMNode)
        (m : MonacoModel) (cur : CursorPos),
      (handleDownArrow gp node doc m cur).prevented = true ↔
        (cur.lineNumber = getLineCount m ∧
         cur.column = getLineMaxColumn m (getLineCount m))) :=
  ⟨isFirstNode_iff, handleDownArrow_prevented⟩

/-- Claim C1: a `DownArrow` keydown with the cursor at the last line's max
column.  If `getPos() + node.nodeSize` is at least the document content
size, an empty paragraph is inserted immediately after the block (which is
then the last node) and focus moves to `endPos + 1`; otherwise the document
is unchanged, the Monaco cursor is reset to line 1 column 1 and focus moves
to `endPos`. -/
theorem claim_downArrow_at_end (p : Int) (node : PMNode) (doc : List PMNode)
    (m : MonacoModel) (cur : CursorPos)
    (hline : cur.lineNumber = getLineCount m)
    (hcol : cur.column = getLineMaxColumn m (getLineCount m))
    (hn : nodeAt doc p = some node) :
    (contentSize doc ≤ p + node.nodeSize →
      (handleDownArrow (some (some p)) node doc m cur).doc = doc ++ [paragraphNode] ∧
      (handleDownArrow (some (some p)) node doc m cur).focus =
        some (p + node.nodeSize + 1) ∧
      (handleDownArrow (some (some p)) node doc m cur).monacoCursor = none) ∧
    (p + node.nodeSize < contentSize doc →
      (handleDownArrow (some (some p)) node doc m cur).doc = doc ∧
      (handleDownArrow (some (some p)) node doc m cur).focus =
        some (p + node.nodeSize) ∧
      (handleDownArrow (some (some p)) node doc m cur).monacoCursor =
        some ⟨1, 1⟩) := by
  obtain ⟨pre, post, hsplit, hsize⟩ := nodeAt_split doc p node hn
  constructor
  · intro hge
    rw [handleDownArrow_insert_eq p node doc m cur ⟨hline, hcol⟩ hge]
    have hdocsize : contentSize doc = p + node.nodeSize + contentSize post := by
      rw [hsplit, contentSize_append, contentSize_cons, hsize, PMNode.nodeSize]
      ring
    have hpost : post = [] := by
      apply eq_nil_of_contentSize_nonpos
      omega
    subst hpost
    rw [contentSize_nil] at hdocsize
    have hins : insertAt (doc ++ []) (p + node.nodeSize) paragraphNode =
        doc ++ paragraphNode :: [] :=
      insertAt_boundary doc [] paragraphNode (p + node.nodeSize) (by omega)
    rw [List.append_nil] at hins
    exact ⟨by rw [hins], rfl, rfl⟩
  · intro hlt
    rw [handleDownArrow_focus_eq p node doc m cur ⟨hline, hcol⟩ hlt]
    exact ⟨rfl, rfl, rfl⟩

/-- Witness for C1 at a concrete state: a one-node document whose code
block holds the single line `x`, cursor at line 1 column 2 (the last
character plus one): the block is last, so a paragraph is appended and
focus moves past it. -/
theorem claim_downArrow_at_end_witness :
    (handleDownArrow (some (some 0))
        { typeName := "codeBlock", language := some "python", marks := [], text := "x" }
        [{ typeName := "codeBlock", language := some "python", marks := [], text := "x" }]
        { lines := ["x"] } ⟨1, 2⟩).doc =
      [{ typeName := "codeBlock", language := some "python", marks := [], text := "x" },
       paragraphNode] ∧
    (handleDownArrow (some (some 0))
        { typeName := "codeBlock", language := some "python", marks := [], text := "x" }
        [{ typeName := "codeBlock", language := some "python", marks := [], text := "x" }]
        { lines := ["x"] } ⟨1, 2⟩).focus = some 4 := by
  have h := (claim_downArrow_at_end 0
      { typeName := "codeBlock", language := some "python", marks := [], text := "x" }
      [{ typeName := "codeBlock", language := some "python", marks := [], text := "x" }]
      { lines := ["x"] } ⟨1, 2⟩ (by decide) (by decide) (by decide)).1 (by decide)
  exact ⟨h.1, by simpa using h.2.1⟩

/-- Claim C2: an `UpArrow` or `LeftArrow` keydown with the cursor at line 1
column 1.  If the block is the first node of the document (`getPos() = 0`),
an empty paragraph is inserted before it and focus moves to that position;
otherwise no node is inserted and focus moves to `getPos()`.  At any other
cursor position the keydown does nothing at all. -/
theorem claim_upLeftArrow_at_origin (gp : Option (Option Int))
    (doc : List PMNode) (cur : CursorPos) :
    (cur = ⟨1, 1⟩ → gp = some (some 0) →
      (handleUpArrow gp doc cur).doc = paragraphNode :: doc ∧
      (handleUpArrow gp doc cur).focus = some 0 ∧
      (handleLeftArrow gp doc cur).doc = paragraphNode :: doc ∧
      (handleLeftArrow gp doc cur).focus = some 0) ∧
    (∀ p : Int, cur = ⟨1, 1⟩ → gp = some (some p) → p ≠ 0 →
      (handleUpArrow gp doc cur).doc = doc ∧
      (handleUpArrow gp doc cur).focus = some p ∧
      (handleLeftArrow gp doc cur).doc = doc ∧
      (handleLeftArrow gp doc cur).focus = some p) ∧
    (cur ≠ ⟨1, 1⟩ →
      handleUpArrow gp doc cur = noKeyEffect doc ∧
      handleLeftArrow gp doc cur = noKeyEffect doc) := by
  refine ⟨?_, ?_, ?_⟩
  · rintro rfl rfl
    have hins : insertAt doc 0 paragraphNode = paragraphNode :: doc :=
      insertAt_nonpos doc 0 paragraphNode le_rfl
    constructor
    · unfold handleUpArrow
      rw [if_pos ⟨rfl, rfl⟩, if_pos (by rw [isFirstNode_iff])]
      simp [insertNodeBefore, hins]
    · constructor
      · unfold handleUpArrow
        rw [if_pos ⟨rfl, rfl⟩, if_pos (by rw [isFirstNode_iff])]
        simp [insertNodeBefore, hins]
      · constructor
        · unfold handleLeftArrow
          rw [if_pos ⟨rfl, rfl⟩, if_pos (by rw [isFirstNode_iff])]
          simp [insertNodeBefore, hins]
        · unfold handleLeftArrow
          rw [if_pos ⟨rfl, rfl⟩, if_pos (by rw [isFirstNode_iff])]
          simp [insertNodeBefore, hins]
  · rintro p rfl rfl hp
    have hnotfirst : isFirstNode (some (some p)) = false := by
      rw [← Bool.not_eq_true, isFirstNode_iff]
      simp [hp]
    constructor
    · unfold handleUpArrow
      rw [if_pos ⟨rfl, rfl⟩, if_neg (by rw [hnotfirst]; exact Bool.false_ne_true)]
    · constructor
      · unfold handleUpArrow
        rw [if_pos ⟨rfl, rfl⟩, if_neg (by rw [hnotfirst]; exact Bool.false_ne_true)]
      · constructor
        · unfold handleLeftArrow
          rw [if_pos ⟨rfl, rfl⟩, if_neg (by rw [hnotfirst]; exact Bool.false_ne_true)]
        · unfold handleLeftArrow
          rw [if_pos ⟨rfl, rfl⟩, if_neg (by rw [hnotfirst]; exact Bool.false_ne_true)]
  · intro hne
    have hcond : ¬ (cur.lineNumber = 1 ∧ cur.column = 1) := by
      intro hc
      apply hne
      cases cur
      simp only at hc
      simp [hc.1, hc.2]
    constructor
    · unfold handleUpArrow
      rw [if_neg hcond]
    · unfold handleLeftArrow
      rw [if_neg hcond]

/-- Witness for C2: in a two-node document with the code block first,
pressing `UpArrow` at line 1 column 1 prepends a paragraph and focuses
position 0. -/
theorem claim_upLeftArrow_at_origin_witness :
    (handleUpArrow (some (some 0)) [paragraphNode] ⟨1, 1⟩).doc =
      [paragraphNode, paragraphNode] ∧
    (handleUpArrow (some (some 0)) [paragraphNode] ⟨1, 1⟩).focus = some 0 := by
  have h := (claim_upLeftArrow_at_origin (some (some 0)) [paragraphNode] ⟨1, 1⟩).1
    rfl rfl
  exact ⟨h.1, h.2.1⟩

/-- Claim C4: a `RightArrow` keydown with the cursor at the last line's max
column moves focus to `getPos() + node.nodeSize`, resets the Monaco cursor
to line 1 column 1, and - unlike `DownArrow` - never changes the document,
whatever `getPos` returns. -/
theorem claim_rightArrow_at_end (p : Int) (node : PMNode) (doc : List PMNode)
    (m : MonacoModel) (cur : CursorPos)
    (hline : cur.lineNumber = getLineCount m)
    (hcol : cur.column = getLineMaxColumn m (getLineCount m)) :
    (handleRightArrow (some (some p)) node doc m cur).doc = doc ∧
    (handleRightArrow (some (some p)) node doc m cur).focus =
      some (p + node.nodeSize) ∧
    (handleRightArrow (some (some p)) node doc m cur).monacoCursor =
      some ⟨1, 1⟩ ∧
    ∀ gp : Option (Option Int), (handleRightArrow gp node doc m cur).doc = doc := by
  have hcond : cur.lineNumber = getLineCount m ∧
      cur.column = getLineMaxColumn m (getLineCount m) := ⟨hline, hcol⟩
  have hmain : handleRightArrow (some (some p)) node doc m cur =
      { doc := doc, focus := some (p + node.nodeSize),
        monacoCursor := some ⟨1, 1⟩, prevented := true } := by
    unfold handleRightArrow
    dsimp only
    rw [if_pos hcond]
  refine ⟨by rw [hmain], by rw [hmain], by rw [hmain], ?_⟩
  intro gp
  unfold handleRightArrow
  dsimp only
  rw [if_pos hcond]
  rcases gp with _ | (_ | q) <;> rfl

/-- Witness for C4 at a concrete state: a one-line block `x`, cursor at
line 1 column 2, block last in a one-node document: the document is
untouched and focus moves to position 3. -/
theorem claim_rightArrow_at_end_witness :
    (handleRightArrow (some (some 0))
        { typeName := "codeBlock", language := none, marks := [], text := "x" }
        [{ typeName := "codeBlock", language := none, marks := [], text := "x" }]
        { lines := ["x"] } ⟨1, 2⟩).doc =
      [{ typeName := "codeBlock", language := none, marks := [], text := "x" }] ∧
    (handleRightArrow (some (some 0))
        { typeName := "codeBlock", language := none, marks := [], text := "x" }
        [{ typeName := "codeBlock", language := none, marks := [], text := "x" }]
        { lines := ["x"] } ⟨1, 2⟩).focus = some 3 := by
  have h := claim_rightArrow_at_end 0
      { typeName := "codeBlock", language := none, marks := [], text := "x" }
      [{ typeName := "codeBlock", language := none, marks := [], text := "x" }]
      { lines := ["x"] } ⟨1, 2⟩ (by decide) (by decide)
  exact ⟨h.1, by simpa using h.2.1⟩

/-- Claim C5: `handleDelete`.  When a node exists at `getPos()`, exactly
the range `[pos, pos + nodeAtPos.nodeSize)` is deleted - the node is
removed and every other node kept; when no node exists there, the document
is unchanged. -/
theorem claim_handleDelete (p : Int) (doc : List PMNode) :
    (∀ n, nodeAt doc p = some n →
      handleDelete (some (some p)) doc = deleteRange doc p (p + n.nodeSize)) ∧
    (∀ n pre post, doc = pre ++ n :: post → contentSize pre = p →
      handleDelete (some (some p)) doc = pre ++ post) ∧
    (nodeAt doc p = none → handleDelete (some (some p)) doc = doc) := by
  refine ⟨?_, ?_, ?_⟩
  · intro n hAt
    unfold handleDelete
    dsimp only
    rw [hAt]
  · intro n pre post hsplit hsize
    subst hsplit
    unfold handleDelete
    dsimp only
    rw [nodeAt_boundary pre n post p hsize]
    exact deleteRange_exact pre n post p hsize
  · intro hAt
    unfold handleDelete
    dsimp only
    rw [hAt]

/-- Witness for C5: deleting the middle node of a three-node document
removes exactly that node. -/
theorem claim_handleDelete_witness :
    handleDelete (some (some 2))
      [paragraphNode,
       { typeName := "codeBlock", language := none, marks := [], text := "ab" },
       paragraphNode] = [paragraphNode, paragraphNode] :=
  (claim_handleDelete 2
      [paragraphNode,
       { typeName := "codeBlock", language := none, marks := [], text := "ab" },
       paragraphNode]).2.1
    { typeName := "codeBlock", language := none, marks := [], text := "ab" }
    [paragraphNode] [paragraphNode] rfl (by decide)

/-- Claim C8: when the debounced change handler does replace content, the
replacement node keeps the original node's type, attributes (the
`language` attribute included) and marks, only its text becomes the new
editor value, and every other node of the document is untouched. -/
theorem claim_editorChange_frame (v : String) (p : Int)
    (pre post : List PMNode) (orig : PMNode)
    (hv : v ≠ "") (hsize : contentSize pre = p) :
    handleEditorChangeCore (some v) false (some (some p)) (pre ++ orig :: post) =
      pre ++ { typeName := orig.typeName, language := orig.language,
               marks := orig.marks, text := v } :: post := by
  have hAt := nodeAt_boundary pre orig post p hsize
  unfold handleEditorChangeCore
  dsimp only
  rw [if_neg hv, if_neg Bool.false_ne_true, hAt]
  exact replaceWith_exact pre orig post p hsize _

/-- Witness for C8: replacing the text of a `python` code block between two
paragraphs keeps its type, language and marks and leaves the paragraphs
alone. -/
theorem claim_editorChange_frame_witness :
    handleEditorChangeCore (some "new") false (some (some 2))
      [paragraphNode,
       { typeName := "codeBlock", language := some "python", marks := ["m"], text := "old" },
       paragraphNode] =
      [paragraphNode,
       { typeName := "codeBlock", language := some "python", marks := ["m"], text := "new" },
       paragraphNode] :=
  claim_editorChange_frame "new" 2 [paragraphNode] [paragraphNode]
    { typeName := "codeBlock", language := some "python", marks := ["m"], text := "old" }
    (by decide) (by decide)

/-- Claim C9: the change handler dispatches nothing - leaving the document
unchanged - when the editor value is `undefined` or the empty string, when
an update is already in progress, or when no node exists at `getPos()`.
In particular an empty editor value never empties the code block node. -/
theorem claim_editorChange_noop (value : Option String) (isUpdating : Bool)
    (gp : Option (Option Int)) (doc : List PMNode)
    (h : value = none ∨ value = some "" ∨ isUpdating = true ∨
         ∀ p : Int, gp = some (some p) → nodeAt doc p = none) :
    handleEditorChangeCore value isUpdating gp doc = doc := by
  rcases value with _ | v
  · rfl
  · rcases h with h | h | h | h
    · exact absurd h (by simp)
    · obtain rfl : v = "" := by simpa using h
      simp [handleEditorChangeCore]
    · subst h
      by_cases hv : v = "" <;> simp [handleEditorChangeCore, hv]
    · by_cases hv : v = ""
      · simp [handleEditorChangeCore, hv]
      · rcases gp with _ | (_ | p)
        · simp [handleEditorChangeCore, hv]
        · simp [handleEditorChangeCore, hv]
        · have hAt := h p rfl
          simp [handleEditorChangeCore, hv, hAt]

/-- Witness for C9: an empty editor value leaves a one-block document
unchanged. -/
theorem claim_editorChange_noop_witness :
    handleEditorChangeCore (some "") false (some (some 0))
      [{ typeName := "codeBlock", language := none, marks := [], text := "old" }] =
      [{ typeName := "codeBlock", language := none, marks := [], text := "old" }] :=
  claim_editorChange_noop (some "") false (some (some 0))
    [{ typeName := "codeBlock", language := none, marks := [], text := "old" }]
    (Or.inr (Or.inl rfl))

/-- Claim C10: a node whose `language` attribute is absent or falsy renders
as `javascript`: the selector value and both language props of the mounted
editor are `javascript`. -/
theorem claim_fallback_language (n : PMNode)
    (h : n.language = none ∨ n.language = some "") :
    (render n).selectorValue = "javascript" ∧
    (render n).editorLanguage = "javascript" ∧
    (render n).editorDefaultLanguage = "javascript" := by
  rcases h with h | h <;> simp [render, effectiveLanguage, h]

/-- Witness for C10: a code block with no `language` attribute renders with
selector value `javascript`. -/
theorem claim_fallback_language_witness :
    (render { typeName := "codeBlock", language := none, marks := [],
              text := "x" }).selectorValue = "javascript" ∧
    (render { typeName := "codeBlock", language := none, marks := [],
              text := "x" }).editorLanguage = "javascript" :=
  ⟨(claim_fallback_language _ (Or.inl rfl)).1,
   (claim_fallback_language
      { typeName := "codeBlock", language := none, marks := [], text := "x" }
      (Or.inl rfl)).2.1⟩

/-- Claim C7: the language selector offers exactly the thirteen languages
of the `ProgrammingLanguage` type, in declaration order, with no
duplicates; the rendered option list is that `languages` array; and
selecting a language sets the node's `language` attribute to the selected
value. -/
theorem claim_languages :
    languages = ["javascript", "typescript", "html", "css", "json", "python",
      "java", "csharp", "php", "ruby", "go", "rust", "shell"] ∧
    languages = allProgrammingLanguages.map ProgrammingLanguage.value ∧
    (∀ l : ProgrammingLanguage, l ∈ allProgrammingLanguages) ∧
    allProgrammingLanguages.Nodup ∧
    (∀ n : PMNode, (render n).options = languages) ∧
    (∀ (n : PMNode) (v : String), (onLanguageChange n v).language = some v) := by
  refine ⟨rfl, rfl, ?_, ?_, fun n => rfl, fun n v => rfl⟩
  · intro l
    cases l <;> simp [allProgrammingLanguages]
  · decide

/-- Auxiliary for C6: once a timer is pending `wait` after the latest call,
a run of later calls each arriving within `wait` of the previous one ends
with exactly one invocation, carrying the last call's arguments, `wait`
after the last call. -/
theorem runDebounce_pending {α : Type} (wait : Int) :
    ∀ (calls : List (Int × α)) (t : Int) (a : α),
      gapsLT wait ((t, a) :: calls) →
      runDebounce wait (some (t + wait, a)) calls =
        [((calls.getLastD (t, a)).1 + wait, (calls.getLastD (t, a)).2)] := by
  intro calls
  induction calls with
  | nil => intro t a _; rfl
  | cons c rest ih =>
      intro t a hg
      obtain ⟨t2, a2⟩ := c
      obtain ⟨hlt, hgap, htail⟩ := hg
      rw [runDebounce, if_neg (by omega)]
      rw [List.getLastD_cons]
      exact ih t2 a2 htail

/-- Claim C6: the change handler's `debounce(…, 300)`.  For any finite
nonempty sequence of calls in which each call arrives less than 300 ms
after the previous one, the wrapped function runs exactly once, with the
arguments of the last call, 300 ms after that last call. -/
theorem claim_debounce {α : Type} (c : Int × α) (calls : List (Int × α))
    (h : gapsLT 300 (c :: calls)) :
    runDebounce 300 none (c :: calls) =
      [((calls.getLastD c).1 + 300, (calls.getLastD c).2)] := by
  obtain ⟨t, a⟩ := c
  rw [runDebounce]
  exact runDebounce_pending 300 calls t a h

/-- Witness for C6: three calls at times 0, 100 and 250 (gaps 100 and 150,
both under 300) produce a single invocation at time 550 with the third
call's argument. -/
theorem claim_debounce_witness :
    runDebounce 300 none
      [((0 : Int), some "a"), (100, some "b"), (250, (none : Option String))] =
      [(550, (none : Option String))] := by
  simpa using claim_debounce ((0 : Int), some "a")
    [(100, some "b"), (250, (none : Option String))]
    (by refine ⟨by omega, by omega, ?_⟩; exact ⟨by omega, by omega, trivial⟩)

end MonacoCodeBlock
